import Mathlib

/-!
Verification of the Mopeka BLE payload decoder and time-of-flight estimator
(`src/utils.py`) against its natural-language specification.

The Python source is shallowly embedded: bytes are `ℕ` (values < 256 where
produced by hex decoding), Python floats are modelled as `ℚ` (every constant
in the source is an exact decimal, and every intermediate value of the
pipeline on decoder outputs is a dyadic-or-small-denominator rational that is
exactly representable as an IEEE double, so rational arithmetic agrees with
the double computation on the inputs reasoned about here), and fallible code
returns `Option`.  Python `round(x)` / `round(x, 2)` use round-half-to-even,
embedded as `roundHE` / `round2`.
-/

namespace Mopeka

/-- Round half to even (Python `round(x)` banker's rounding) of a rational,
as an integer. -/
def roundHE (q : ℚ) : ℤ :=
  let f := ⌊q⌋
  let r := q - f
  if r < 1 / 2 then f
  else if 1 / 2 < r then f + 1
  else if f % 2 = 0 then f else f + 1

/-- Python `round(x, 2)`: round to two decimal digits, ties to even. -/
def round2 (q : ℚ) : ℚ := (roundHE (q * 100) : ℚ) / 100

/-- Value of one hex digit character, `none` when not a hex digit
(`bytearray.fromhex` accepts both cases). -/
def hexVal (c : Char) : Option ℕ :=
  if 48 ≤ c.toNat ∧ c.toNat ≤ 57 then some (c.toNat - 48)
  else if 97 ≤ c.toNat ∧ c.toNat ≤ 102 then some (c.toNat - 97 + 10)
  else if 65 ≤ c.toNat ∧ c.toNat ≤ 70 then some (c.toNat - 65 + 10)
  else none

/-- Consume hex digits two at a time into bytes; `none` on a non-hex digit or
an odd digit count (the `ValueError` cases of `bytearray.fromhex` after the
source has removed the spaces). -/
def hexPairsToBytes : List Char → Option (List ℕ)
  | [] => some []
  | [_] => none
  | c1 :: c2 :: rest => do
    let h ← hexVal c1
    let l ← hexVal c2
    let bs ← hexPairsToBytes rest
    pure ((h * 16 + l) :: bs)

/-- `hex_to_bytearray`: strip spaces (the source does
`hex_string.replace(" ", "")`), then `bytearray.fromhex`; `ValueError`
becomes `none`. -/
def hex_to_bytearray (hex_string : String) : Option (List ℕ) :=
  hexPairsToBytes (hex_string.toList.filter (fun ch => ch ≠ ' '))

/-- One decoded ultrasonic echo peak: the dict `{"a": amplitude, "i": time
offset}` of the source. -/
structure Peak where
  a : ℕ
  i : ℕ
deriving DecidableEq

/-- The 10-bit-slot peak decoding loop of `parse_payload` (`for q in
range(12)` with `w = 6`), translated with explicit fuel (`fuel` slots remain,
`q` is the current slot index, `lastTime` the running time).  `& 0x1F` is
written `% 32` and `>> k` as `/ 2 ^ k`. -/
def decodeSlots (mfr : List ℕ) : ℕ → ℕ → ℕ → List Peak
  | 0, _, _ => []
  | fuel + 1, q, lastTime =>
    let bitpos := q * 10
    let bytepos := bitpos / 8
    let off := bitpos % 8
    if 6 + bytepos + 1 ≥ mfr.length then []
    else
      let v := (mfr.getD (6 + bytepos) 0 + mfr.getD (6 + bytepos + 1) 0 * 256) / 2 ^ off
      let dt := v % 32 + 1
      let amp := v / 32 % 32
      let thisTime := lastTime + dt
      if thisTime > 255 then []
      else if amp = 0 then decodeSlots mfr fuel (q + 1) thisTime
      else ⟨(amp - 1) * 4 + 6, thisTime * 2⟩ :: decodeSlots mfr fuel (q + 1) thisTime

inductive HwFamily where
  | gen2
  | xl
deriving DecidableEq

/-- The accelerometer lookup table of `parse_payload`. -/
def accelo_map : List ℤ := [-7, 1, 2, 3, 4, 5, 6, 0, -6, -5, -8, 7, -4, -3, -2, -1]

/-- The sensor frame dict returned by `parse_payload` (the two header fields
keep the raw bytes instead of the `.hex()` string rendering). -/
structure SensorFrame where
  header : List ℕ
  manufacturer_header : List ℕ
  accelerometer_raw : ℕ
  accelerometer_x : ℤ
  accelerometer_y : ℤ
  hardware_id : ℕ
  hardware_family : HwFamily
  hardware_version : ℕ
  battery_raw : ℕ
  battery_voltage : ℚ
  temperature_raw : ℕ
  temperature_c : ℚ
  slow_update : Bool
  sync_pressed : Bool
  advertisement_peaks : List Peak
deriving DecidableEq

/-- Field extraction of `parse_payload` on a byte sequence of length ≥ 8.
All fixed-offset accesses are at indices 2–5 of `mfrData`, which has length
≥ 6 under the caller's length guard, and the peak loop guards its own
accesses, so the `except (IndexError, ValueError)` branch of the source is
unreachable and the extraction is total here.  `& 0x0F`/`>> 4`/`& 0x3F` are
written `% 16`/`/ 16`/`% 64`. -/
def mkFrame (data : List ℕ) : SensorFrame :=
  let mfrData := data.drop 2
  let acceloByte := mfrData.getD 2 0
  let hwid := mfrData.getD 3 0
  let batteryRaw := mfrData.getD 4 0
  let tempByte := mfrData.getD 5 0
  let rawTemp := tempByte % 64
  ⟨data.take 2,
   mfrData.take 2,
   acceloByte,
   accelo_map.getD (acceloByte % 16) 0,
   accelo_map.getD (acceloByte / 16 % 16) 0,
   hwid,
   if hwid % 2 = 1 then .xl else .gen2,
   hwid &&& 0xCF,
   batteryRaw,
   round2 ((batteryRaw : ℚ) / 256 * 2 + 1.5),
   rawTemp,
   round2 (if rawTemp = 0 then -40 else ((rawTemp : ℚ) - 25) * 1.776964),
   decide (tempByte &&& 0x40 ≠ 0),
   decide (tempByte &&& 0x80 ≠ 0),
   decodeSlots mfrData 12 0 0⟩

/-- `parse_payload` on an already-decoded byte list: the `len(data) < 8`
guard (which also covers `not data`), then field extraction. -/
def parsePayloadBytes (data : List ℕ) : Option SensorFrame :=
  if data.length < 8 then none else some (mkFrame data)

/-- `parse_payload`: hex decoding followed by field extraction; any failure
yields `None`. -/
def parse_payload (hex_payload : String) : Option SensorFrame :=
  match hex_to_bytearray hex_payload with
  | none => none
  | some data => parsePayloadBytes data

/-- `adjust_amplitude`: noise floor at `0.5 * vref`, later peaks discounted
by `(255 - time)/256`. -/
def adjust_amplitude (a_val time_val vref : ℚ) : ℚ :=
  let c_val := 0.5 * vref
  let d_val := (255 - time_val) / 256
  if a_val ≤ c_val then 0 else (a_val - c_val) * d_val

/-- The source's default reference constant `vref=1.2421875`. -/
def vrefDefault : ℚ := 1.2421875

/-- The half-unit time value `c[j]['i'] / 2.0` of the peak at index `j`. -/
def peakTime (c : List Peak) (j : ℕ) : ℚ := ((c.getD j ⟨0, 0⟩).i : ℚ) / 2

/-- The adjusted amplitude `adjust_amplitude(c[j]['a'], c[j]['i']/2.0, vref)`
of the peak at index `j`. -/
def peakAdj (c : List Peak) (j : ℕ) (vref : ℚ) : ℚ :=
  adjust_amplitude ((c.getD j ⟨0, 0⟩).a : ℚ) (peakTime c j) vref

/-- Cluster-start indices `k` of `compute_pulse_echo_time2`: index 0 plus
every `b ∈ 1..e-1` whose time `c[b]['i']/2` is not exactly one unit after its
predecessor's (tolerance `1e-6`). -/
def clusterStarts (c : List Peak) : List ℕ :=
  0 :: (List.range' 1 (c.length - 1)).filter (fun b =>
    |(peakTime c (b - 1) + 1) - peakTime c b| > 1 / 1000000)

/-- Argmax scan of one segment `[p, q)`: running `(m_val, n_val)` starting at
`(0, 0)`, strict `>` so the first maximal amplitude wins. -/
def segArgmax (c : List Peak) (p q : ℕ) : ℕ :=
  ((List.range' p (q - p)).foldl
    (fun st f => if (c.getD f ⟨0, 0⟩).a > st.1 then ((c.getD f ⟨0, 0⟩).a, f) else st)
    (0, 0)).2

/-- Representative indices `g_list`: for segment `b` the bounds are
`k[b]` and `k[b+1]` (or `e` for the last segment), matching the running `p`
of the source loop. -/
def gList (c : List Peak) : List ℕ :=
  let k := clusterStarts c
  (List.range k.length).map (fun b =>
    segArgmax c (k.getD b 0) (if b = k.length - 1 then c.length else k.getD (b + 1) 0))

/-- `arr[idx] += v` guarded by `if idx < 100`, with Python's negative-index
wraparound (`arr[-k]` is `arr[len-k]`).  The source only ever reaches a
negative index for peak lists whose time offsets decrease, which the decoder
never produces (`decoded_peaks_invariants`); an index below `-100` would
raise in Python and cannot occur for those inputs either. -/
def bump (arr : List ℚ) (i : ℤ) (v : ℚ) : List ℚ :=
  if i < 100 then
    let j := if 0 ≤ i then i.toNat else arr.length - (-i).toNat
    arr.set j (arr.getD j 0 + v)
  else arr

/-- The all-peaks accumulator `n_arr`: self terms weighted `0.5`, ordered
pairs contribute the minimum of the two adjusted amplitudes into the bucket
of the time difference. -/
def buildN (c : List Peak) (vref : ℚ) : List ℚ :=
  (List.range c.length).foldl (fun arr b =>
    (List.range' (b + 1) (c.length - (b + 1))).foldl (fun arr2 f =>
      bump arr2 (roundHE (peakTime c f - peakTime c b))
        (if peakAdj c b vref < peakAdj c f vref then peakAdj c b vref else peakAdj c f vref))
      (bump arr (roundHE (peakTime c b)) (0.5 * peakAdj c b vref)))
    (List.replicate 100 0)

/-- The representatives-only accumulator `m_arr`: the self term is the full
adjusted amplitude (`m_arr[idx] += m_adj`, no `0.5` factor), ordered pairs
contribute the average of the two adjusted amplitudes. -/
def buildM (c : List Peak) (g : List ℕ) (vref : ℚ) : List ℚ :=
  (List.range g.length).foldl (fun arr b =>
    (List.range' (b + 1) (g.length - (b + 1))).foldl (fun arr2 f =>
      bump arr2 (roundHE (peakTime c (g.getD f 0) - peakTime c (g.getD b 0)))
        ((peakAdj c (g.getD f 0) vref + peakAdj c (g.getD b 0) vref) / 2))
      (bump arr (roundHE (peakTime c (g.getD b 0))) (peakAdj c (g.getD b 0) vref)))
    (List.replicate 100 0)

/-- The smoothing step `score_filt`: interior buckets use the five-tap
combination, buckets 0 and 99 the one-sided edge forms. -/
def scoreFilt (nA mA : List ℚ) : List ℚ :=
  (List.range 100).map (fun b =>
    if b = 0 then
      0.25 * nA.getD 1 0 + 0.5 * nA.getD 0 0 + 0.5 * mA.getD 1 0 + 0.5 * mA.getD 0 0
    else if b = 99 then
      0.25 * nA.getD 98 0 + 0.5 * nA.getD 99 0 + 0.5 * mA.getD 98 0 + 0.5 * mA.getD 99 0
    else
      0.25 * (nA.getD (b - 1) 0 + nA.getD (b + 1) 0) + 0.5 * nA.getD b 0 +
        0.5 * (mA.getD (b - 1) 0 + mA.getD (b + 1) 0) + 0.5 * mA.getD b 0)

/-- The argmax scan over buckets 2..99 with starting threshold `0.005`,
returning `n_index`. -/
def bestBucket (score : List ℚ) : ℕ :=
  ((List.range' 2 98).foldl
    (fun st b => if score.getD b 0 > st.1 then (score.getD b 0, b) else st)
    (1 / 200, 0)).2

/-- `max(peak['a'] for peak in c)` for nonempty `c` (amplitudes are
naturals, so folding from 0 agrees with Python's `max`). -/
def gMax (c : List Peak) : ℕ :=
  (c.map (fun p => p.a)).foldl max 0

/-- `compute_pulse_echo_time2`.  `2e-5` is written as the exact rational of
the source literal. -/
def compute_pulse_echo_time2 (c : List Peak) (vref : ℚ) : ℚ :=
  if c = [] then 0
  else
    let nA := buildN c vref
    let mA := buildM c (gList c) vref
    let sf := scoreFilt nA mA
    let nIndex := bestBucket sf
    if (gMax c : ℚ) ≤ 0.63453125 then 0 else 2 / 100000 * (nIndex : ℚ)

/-- `legacy_level_inches`. -/
def legacy_level_inches (tof : ℚ) : ℚ := 13700 * tof + 0.5

/-- `legacy_level_cm`. -/
def legacy_level_cm (tof : ℚ) : ℚ := legacy_level_inches tof * 2.54

/-- `legacy_level_percentage`: 100 below the minimum tank height, otherwise
the linear map clamped to [2, 100] and rounded (Python `round`, half to
even). -/
def legacy_level_percentage (tof : ℚ) (tank_height : ℚ) : ℤ :=
  if tank_height ≤ 0.0381 then 100
  else
    let levelMeters := legacy_level_cm tof / 100
    let pct := 98 * (levelMeters - 0.0381) / (tank_height - 0.0381) + 2
    let pct1 := if pct < 2 then 2 else pct
    let pct2 := if pct1 > 100 then 100 else pct1
    roundHE pct2

/-- The merged result record of `process_hex_string` (the parsed dict plus
the derived fields). -/
structure ResultFrame where
  frame : SensorFrame
  tof : ℚ
  level_inches : ℚ
  level_cm : ℚ
  is_empty : Bool
  percentage : ℤ
deriving DecidableEq

/-- The result assembly of `process_hex_string` on a parsed frame: the ToF
estimate (default `vref`), the level conversions, `is_empty = (tof == 0)`,
and the percentage (0 when empty). -/
def mkResult (parsed : SensorFrame) (tank_height : ℚ) : ResultFrame :=
  let tof := compute_pulse_echo_time2 parsed.advertisement_peaks vrefDefault
  let is_empty := decide (tof = 0)
  ⟨parsed, tof, legacy_level_inches tof, legacy_level_cm tof, is_empty,
    if is_empty then 0 else legacy_level_percentage tof tank_height⟩

/-- `process_hex_string`: empty string and decode failures give `None`;
otherwise the merged result record. -/
def process_hex_string (hex_string : String) (tank_height : ℚ) : Option ResultFrame :=
  if hex_string = "" then none
  else
    match parse_payload hex_string with
    | none => none
    | some parsed => some (mkResult parsed tank_height)

/-! ## Spec transcriptions of the two family-specific peak encodings

These two definitions follow the specification's words (spec §4.1 / claims
C1 and C4), to be compared with the decoder embedded from the source. -/

/-- Spec transcription, xl family, one ten-bit slot: the 16-bit
little-endian value at byte offset `(q*10)/8` (from manufacturer-data
offset 6), shifted right by `(q*10) mod 8`; low 5 bits plus 1 are `dt`, the
next 5 bits are `amp`; `none` when the two needed bytes are not both
present. -/
def specXlSlot (mfr : List ℕ) (q : ℕ) : Option (ℕ × ℕ) :=
  (mfr[6 + q * 10 / 8]?).bind fun lo =>
    (mfr[6 + q * 10 / 8 + 1]?).bind fun hi =>
      let v := (lo + 256 * hi) / 2 ^ (q * 10 % 8)
      some (v % 32 + 1, v / 32 % 32)

/-- Spec transcription, xl family: walk the given slot indices with a
running cumulative time starting at 0; stop on a missing slot or when the
cumulative time exceeds 255; `amp = 0` advances time without emitting;
otherwise emit `{amplitude: (amp−1)*4+6, timeOffset: thisTime*2}`. -/
def specXlAux (mfr : List ℕ) : List ℕ → ℕ → List Peak
  | [], _ => []
  | q :: qs, lastTime =>
    match specXlSlot mfr q with
    | none => []
    | some dtamp =>
      let thisTime := lastTime + dtamp.1
      if 255 < thisTime then []
      else if dtamp.2 = 0 then specXlAux mfr qs thisTime
      else ⟨(dtamp.2 - 1) * 4 + 6, thisTime * 2⟩ :: specXlAux mfr qs thisTime

/-- Spec transcription, xl family: up to 12 ten-bit slots. -/
def specXlPeaks (mfr : List ℕ) : List Peak := specXlAux mfr (List.range 12) 0

/-- Spec transcription, gen2 family, from the claimed byte-pair encoding:
repeatedly read two bytes `(amp, offset)`; stop at the `(0,0)` sentinel or
when fewer than two bytes remain; otherwise append `{amplitude: amp,
timeOffset: offset}` unscaled and advance by 2. -/
def gen2PairsAux : List ℕ → List Peak
  | amp :: off :: rest =>
    if amp = 0 ∧ off = 0 then [] else ⟨amp, off⟩ :: gen2PairsAux rest
  | _ => []

/-- Spec transcription, gen2 family: byte pairs starting at
manufacturer-data offset 6. -/
def specGen2Peaks (mfr : List ℕ) : List Peak := gen2PairsAux (mfr.drop 6)

/-- A slot whose second needed byte is absent reads as `none`. -/
lemma specXlSlot_eq_none {mfr : List ℕ} {q : ℕ} (h : mfr.length ≤ 6 + q * 10 / 8 + 1) :
    specXlSlot mfr q = none := by
  have h2 : mfr[6 + q * 10 / 8 + 1]? = none := List.getElem?_eq_none h
  rcases Nat.lt_or_ge (6 + q * 10 / 8) mfr.length with h1 | h1
  · simp [specXlSlot, List.getElem?_eq_getElem h1, h2]
  · simp [specXlSlot, List.getElem?_eq_none h1]

/-- A slot with both bytes present reads the packed `(dt, amp)` pair. -/
lemma specXlSlot_eq_some {mfr : List ℕ} {q : ℕ} (h : 6 + q * 10 / 8 + 1 < mfr.length) :
    specXlSlot mfr q =
      some ((mfr.getD (6 + q * 10 / 8) 0 + mfr.getD (6 + q * 10 / 8 + 1) 0 * 256) /
              2 ^ (q * 10 % 8) % 32 + 1,
            (mfr.getD (6 + q * 10 / 8) 0 + mfr.getD (6 + q * 10 / 8 + 1) 0 * 256) /
              2 ^ (q * 10 % 8) / 32 % 32) := by
  have h1 : 6 + q * 10 / 8 < mfr.length := by omega
  simp only [specXlSlot, List.getElem?_eq_getElem h1, List.getElem?_eq_getElem h,
    Option.some_bind, List.getD_eq_getElem _ _ h1, List.getD_eq_getElem _ _ h,
    Nat.mul_comm 256]

lemma specXlAux_cons_none {mfr : List ℕ} {q : ℕ} {qs : List ℕ} {t : ℕ}
    (h : specXlSlot mfr q = none) : specXlAux mfr (q :: qs) t = [] := by
  simp [specXlAux, h]

lemma specXlAux_cons_some {mfr : List ℕ} {q : ℕ} {qs : List ℕ} {t dt amp : ℕ}
    (h : specXlSlot mfr q = some (dt, amp)) :
    specXlAux mfr (q :: qs) t =
      if 255 < t + dt then []
      else if amp = 0 then specXlAux mfr qs (t + dt)
      else ⟨(amp - 1) * 4 + 6, (t + dt) * 2⟩ :: specXlAux mfr qs (t + dt) := by
  simp [specXlAux, h]

/-- The source's ten-bit decoding loop coincides with the spec transcription
of the xl scheme, for any starting slot and time. -/
lemma decodeSlots_eq_specXlAux (mfr : List ℕ) :
    ∀ fuel q t, decodeSlots mfr fuel q t = specXlAux mfr (List.range' q fuel) t := by
  intro fuel
  induction fuel with
  | zero => intro q t; simp [decodeSlots, specXlAux]
  | succ n ih =>
    intro q t
    rw [List.range'_succ]
    by_cases hlen : mfr.length ≤ 6 + q * 10 / 8 + 1
    · rw [specXlAux_cons_none (specXlSlot_eq_none hlen)]
      simp [decodeSlots, hlen]
    · push_neg at hlen
      rw [specXlAux_cons_some (specXlSlot_eq_some hlen)]
      have hguard : ¬ (6 + q * 10 / 8 + 1 ≥ mfr.length) := by omega
      simp only [decodeSlots, ge_iff_le, hguard, if_false]
      simp [ih]

/-- Decomposition of a successful byte-level parse. -/
lemma parsePayloadBytes_eq_some {data : List ℕ} {fr : SensorFrame}
    (h : parsePayloadBytes data = some fr) : 8 ≤ data.length ∧ fr = mkFrame data := by
  unfold parsePayloadBytes at h
  split at h
  · exact absurd h (by simp)
  · next hlen => exact ⟨by omega, (Option.some_inj.mp h).symm⟩

/-- Decomposition of a successful string-level parse. -/
lemma parse_payload_eq_some {s : String} {fr : SensorFrame}
    (h : parse_payload s = some fr) :
    ∃ data, hex_to_bytearray s = some data ∧ 8 ≤ data.length ∧ fr = mkFrame data := by
  unfold parse_payload at h
  split at h
  · exact absurd h (by simp)
  · next data heq =>
    obtain ⟨h1, h2⟩ := parsePayloadBytes_eq_some h
    exact ⟨data, heq, h1, h2⟩

/-- An xl-family test payload (hardware id 3): four ten-bit slots, three
silent time advances of 32 then a peak at cumulative time 101. -/
def dataXl : List ℕ := [26, 255, 13, 0, 0, 3, 0, 0, 31, 124, 240, 1, 9]

/-- A gen2-family test payload (hardware id 2) with peak bytes `0x21 0x04`. -/
def dataGen2 : List ℕ := [26, 255, 13, 0, 0, 2, 0, 0, 33, 4]

/-- C4: for every payload whose hardware-id byte has low bit 1 (xl family),
the decoded peaks are exactly the spec's ten-bit slot decoding of the
manufacturer data: up to 12 slots, 16-bit little-endian reads at byte offset
`(q*10)/8` shifted by `(q*10) mod 8`, `dt` from the low 5 bits plus 1, `amp`
from the next 5 bits, stopping on a missing byte or cumulative time > 255,
skipping `amp = 0` slots, and emitting `{(amp−1)*4+6, thisTime*2}`. -/
theorem xl_peaks_follow_tenbit_spec (data : List ℕ) (fr : SensorFrame)
    (h : parsePayloadBytes data = some fr) (hxl : fr.hardware_id % 2 = 1) :
    fr.advertisement_peaks = specXlPeaks (data.drop 2) := by
  obtain ⟨hlen, rfl⟩ := parsePayloadBytes_eq_some h
  show decodeSlots (data.drop 2) 12 0 0 = specXlPeaks (data.drop 2)
  rw [specXlPeaks, List.range_eq_range', decodeSlots_eq_specXlAux]

unseal Rat.inv Rat.mul Rat.add Rat.sub Rat.ofScientific in
theorem xl_peaks_follow_tenbit_spec_witness :
    parsePayloadBytes dataXl = some (mkFrame dataXl) ∧
    (mkFrame dataXl).hardware_id % 2 = 1 ∧
    (mkFrame dataXl).advertisement_peaks = specXlPeaks (dataXl.drop 2) :=
  ⟨by decide, by decide, xl_peaks_follow_tenbit_spec dataXl (mkFrame dataXl)
    (by decide) (by decide)⟩

unseal Rat.inv Rat.mul Rat.add Rat.sub Rat.ofScientific in
/-- C1, counterexample: this gen2-family payload (hardware id 2, even) is
decoded by the source with the ten-bit scheme, producing `[{6, 4}]`, whereas
the claimed byte-pair decoding of the same manufacturer data produces
`[{33, 4}]`; peak decoding is therefore not selected by hardware family. -/
theorem gen2_bytepair_counterexample :
    parsePayloadBytes dataGen2 = some (mkFrame dataGen2) ∧
    (mkFrame dataGen2).hardware_family = HwFamily.gen2 ∧
    (mkFrame dataGen2).advertisement_peaks = [⟨6, 4⟩] ∧
    specGen2Peaks (dataGen2.drop 2) = [⟨33, 4⟩] ∧
    (mkFrame dataGen2).advertisement_peaks ≠ specGen2Peaks (dataGen2.drop 2) := by
  decide

/-- C1, amended: for every payload whose hardware-id byte has low bit 0
(gen2 family), the decoder applies the same ten-bit slot scheme as the xl
family, starting at manufacturer-data offset 6; the hardware family does not
select the peak decoding. -/
theorem gen2_decoded_with_tenbit_scheme (data : List ℕ) (fr : SensorFrame)
    (h : parsePayloadBytes data = some fr) (hgen2 : fr.hardware_family = HwFamily.gen2) :
    fr.advertisement_peaks = specXlPeaks (data.drop 2) := by
  obtain ⟨hlen, rfl⟩ := parsePayloadBytes_eq_some h
  show decodeSlots (data.drop 2) 12 0 0 = specXlPeaks (data.drop 2)
  rw [specXlPeaks, List.range_eq_range', decodeSlots_eq_specXlAux]

unseal Rat.inv Rat.mul Rat.add Rat.sub Rat.ofScientific in
theorem gen2_decoded_with_tenbit_scheme_witness :
    parsePayloadBytes dataGen2 = some (mkFrame dataGen2) ∧
    (mkFrame dataGen2).hardware_family = HwFamily.gen2 ∧
    (mkFrame dataGen2).advertisement_peaks = specXlPeaks (dataGen2.drop 2) :=
  ⟨by decide, by decide, gen2_decoded_with_tenbit_scheme dataGen2 (mkFrame dataGen2)
    (by decide) (by decide)⟩

/-- Bounds carried by any successfully read slot: `dt = v % 32 + 1 ≥ 1` and
`amp = v / 32 % 32 ≤ 31`. -/
lemma specXlSlot_bounds {mfr : List ℕ} {q dt amp : ℕ}
    (h : specXlSlot mfr q = some (dt, amp)) : 1 ≤ dt ∧ amp ≤ 31 := by
  unfold specXlSlot at h
  cases h1 : mfr[6 + q * 10 / 8]? with
  | none => rw [h1] at h; simp at h
  | some lo =>
    cases h2 : mfr[6 + q * 10 / 8 + 1]? with
    | none => rw [h1, h2] at h; simp at h
    | some hi =>
      rw [h1, h2] at h
      simp only [Option.some_bind, Option.some_inj] at h
      obtain ⟨hdt, hamp⟩ := Prod.mk.injEq _ _ _ _ ▸ h
      omega

/-- Structural invariants of the ten-bit decoding: at most one peak per
slot; time offsets even, strictly larger than twice the starting time, at
most 510, and strictly increasing; amplitudes of the form `(k−1)*4+6` with
`k ∈ 1..31`. -/
lemma specXlAux_sound (mfr : List ℕ) :
    ∀ (qs : List ℕ) (t : ℕ),
      (specXlAux mfr qs t).length ≤ qs.length ∧
      (∀ p ∈ specXlAux mfr qs t,
        2 * t < p.i ∧ p.i ≤ 510 ∧ p.i % 2 = 0 ∧
          ∃ k, 1 ≤ k ∧ k ≤ 31 ∧ p.a = (k - 1) * 4 + 6) ∧
      (specXlAux mfr qs t).Pairwise (fun p1 p2 => p1.i < p2.i) := by
  intro qs
  induction qs with
  | nil => intro t; simp [specXlAux]
  | cons q qs ih =>
    intro t
    rcases hslot : specXlSlot mfr q with _ | ⟨dt, amp⟩
    · rw [specXlAux_cons_none hslot]; simp
    · obtain ⟨hdt, hamp⟩ := specXlSlot_bounds hslot
      rw [specXlAux_cons_some hslot]
      by_cases hT : 255 < t + dt
      · simp [hT]
      · simp only [hT, if_false]
        by_cases hz : amp = 0
        · simp only [hz, if_true]
          obtain ⟨h1, h2, h3⟩ := ih (t + dt)
          exact ⟨h1.trans (Nat.le_succ _),
            fun p hp => ⟨by have := (h2 p hp).1; omega, (h2 p hp).2⟩, h3⟩
        · simp only [hz, if_false]
          obtain ⟨h1, h2, h3⟩ := ih (t + dt)
          refine ⟨by simpa using h1, ?_, ?_⟩
          · intro p hp
            rcases List.mem_cons.mp hp with rfl | hp'
            · refine ⟨?_, ?_, ?_, amp, by omega, hamp, rfl⟩
              · show 2 * t < (t + dt) * 2
                omega
              · show (t + dt) * 2 ≤ 510
                omega
              · show (t + dt) * 2 % 2 = 0
                omega
            · obtain ⟨ha, hb⟩ := h2 p hp'
              exact ⟨by omega, hb⟩
          · rw [List.pairwise_cons]
            refine ⟨fun p hp => ?_, h3⟩
            have := (h2 p hp).1
            show (t + dt) * 2 < p.i
            omega

/-- The C10 well-formedness property of a decoded peak list: at most 12
peaks; time offsets even, strictly increasing and at most 510; amplitudes
of the form `(k−1)*4+6` with `k ∈ 1..31` (that is, in `{6, 10, ..., 126}`),
hence strictly above the `0.63453125` noise threshold. -/
def peaksWellFormed (ps : List Peak) : Prop :=
  ps.length ≤ 12 ∧
  (∀ p ∈ ps,
    p.i % 2 = 0 ∧ p.i ≤ 510 ∧
    (∃ k, 1 ≤ k ∧ k ≤ 31 ∧ p.a = (k - 1) * 4 + 6) ∧
    (0.63453125 : ℚ) < (p.a : ℚ)) ∧
  ps.Pairwise (fun p1 p2 => p1.i < p2.i)

/-- C10: every successfully decoded payload's peak list contains at most 12
peaks with even, strictly increasing time offsets at most 510, and
amplitudes in `{6, 10, ..., 126}`, all strictly above the noise
threshold `0.63453125`. -/
theorem decoded_peaks_invariants (data : List ℕ) (fr : SensorFrame)
    (h : parsePayloadBytes data = some fr) :
    peaksWellFormed fr.advertisement_peaks := by
  obtain ⟨hlen, rfl⟩ := parsePayloadBytes_eq_some h
  have hpeaks : (mkFrame data).advertisement_peaks =
      specXlAux (data.drop 2) (List.range 12) 0 := by
    show decodeSlots (data.drop 2) 12 0 0 = _
    rw [List.range_eq_range', decodeSlots_eq_specXlAux]
  rw [peaksWellFormed, hpeaks]
  obtain ⟨h1, h2, h3⟩ := specXlAux_sound (data.drop 2) (List.range 12) 0
  refine ⟨by simpa using h1, ?_, h3⟩
  intro p hp
  obtain ⟨_, hb, hc, k, hk1, hk31, hka⟩ := h2 p hp
  refine ⟨hc, hb, ⟨k, hk1, hk31, hka⟩, ?_⟩
  have h6 : 6 ≤ p.a := by omega
  have h6q : (6 : ℚ) ≤ (p.a : ℚ) := by exact_mod_cast h6
  have : (0.63453125 : ℚ) < 6 := by norm_num
  linarith

unseal Rat.inv Rat.mul Rat.add Rat.sub Rat.ofScientific in
theorem decoded_peaks_invariants_witness :
    parsePayloadBytes dataXl = some (mkFrame dataXl) ∧
    peaksWellFormed (mkFrame dataXl).advertisement_peaks :=
  ⟨by decide, decoded_peaks_invariants dataXl (mkFrame dataXl) (by decide)⟩

/-- A hex digit's value is below 16. -/
lemma hexVal_lt {c : Char} {v : ℕ} (h : hexVal c = some v) : v < 16 := by
  unfold hexVal at h
  split at h
  · next hc => rw [Option.some_inj] at h; omega
  · split at h
    · next hc => rw [Option.some_inj] at h; omega
    · split at h
      · next hc => rw [Option.some_inj] at h; omega
      · exact absurd h (by simp)

/-- Soundness of hex-pair decoding: on success every character was a hex
digit, the digit count is twice the byte count, and every byte is below
256. -/
lemma hexPairsToBytes_sound :
    ∀ (l : List Char) (bs : List ℕ), hexPairsToBytes l = some bs →
      (∀ ch ∈ l, (hexVal ch).isSome) ∧ l.length = 2 * bs.length ∧ ∀ b ∈ bs, b < 256
  | [], bs, h => by
    rw [hexPairsToBytes, Option.some_inj] at h
    subst h
    simp
  | [c], bs, h => by
    rw [hexPairsToBytes] at h
    exact absurd h (by simp)
  | c1 :: c2 :: rest, bs, h => by
    rw [hexPairsToBytes] at h
    simp only [Option.bind_eq_bind, Option.bind_eq_some, Option.pure_def,
      Option.some_inj] at h
    obtain ⟨v1, hv1, v2, hv2, bs', hbs', rfl⟩ := h
    obtain ⟨ihall, ihlen, ihbytes⟩ := hexPairsToBytes_sound rest bs' hbs'
    refine ⟨?_, ?_, ?_⟩
    · intro ch hch
      simp only [List.mem_cons] at hch
      rcases hch with rfl | rfl | hch
      · simp [hv1]
      · simp [hv2]
      · exact ihall ch hch
    · simp only [List.length_cons, ihlen]
      omega
    · intro b hb
      rcases List.mem_cons.mp hb with rfl | hb'
      · have := hexVal_lt hv1
        have := hexVal_lt hv2
        omega
      · exact ihbytes b hb'

/-- `roundHE` never rounds below the floor. -/
lemma floor_le_roundHE (q : ℚ) : ⌊q⌋ ≤ roundHE q := by
  simp only [roundHE]
  split
  · exact le_refl _
  · split
    · omega
    · split <;> omega

/-- `roundHE` stays within a half above. -/
lemma roundHE_le (q : ℚ) : (roundHE q : ℚ) ≤ q + 1 / 2 := by
  have h1 : (⌊q⌋ : ℚ) ≤ q := Int.floor_le q
  have h2 : q < ⌊q⌋ + 1 := Int.lt_floor_add_one q
  simp only [roundHE]
  split
  · linarith
  · split
    · next h h' => push_cast; linarith
    · split
      · linarith
      · next h h' h'' => push_cast; linarith

/-- `roundHE` stays within a half below. -/
lemma le_roundHE (q : ℚ) : q - 1 / 2 ≤ (roundHE q : ℚ) := by
  have h1 : (⌊q⌋ : ℚ) ≤ q := Int.floor_le q
  have h2 : q < ⌊q⌋ + 1 := Int.lt_floor_add_one q
  simp only [roundHE]
  split
  · next h => linarith
  · split
    · push_cast; linarith
    · split
      · next h h' h'' => linarith
      · push_cast; linarith

/-- C8: any input whose space-stripped character list contains a non-hex
character, has an odd digit count, or has fewer than 16 hex digits (hence
decodes to fewer than 8 bytes) produces the single no-result outcome
`none`, with no partial frame. -/
theorem invalid_input_no_result (s : String) (th : ℚ)
    (h : (∃ ch ∈ s.toList.filter (fun ch => ch ≠ ' '), hexVal ch = none) ∨
         (s.toList.filter (fun ch => ch ≠ ' ')).length % 2 = 1 ∨
         (s.toList.filter (fun ch => ch ≠ ' ')).length < 16) :
    process_hex_string s th = none := by
  by_cases hs : s = ""
  · simp [process_hex_string, hs]
  · rw [process_hex_string, if_neg hs]
    cases hp : parse_payload s with
    | none => rfl
    | some parsed =>
      exfalso
      obtain ⟨data, hhex, hlen, _⟩ := parse_payload_eq_some hp
      rw [hex_to_bytearray] at hhex
      obtain ⟨hall, hlength, _⟩ := hexPairsToBytes_sound _ _ hhex
      rcases h with ⟨ch, hch, hnone⟩ | hodd | hshort
      · have := hall ch hch
        rw [hnone] at this
        exact absurd this (by simp)
      · omega
      · omega

unseal Rat.inv Rat.mul Rat.add Rat.sub Rat.ofScientific in
theorem invalid_input_no_result_witness :
    ((∃ ch ∈ "ZZ".toList.filter (fun ch => ch ≠ ' '), hexVal ch = none) ∨
      ("ZZ".toList.filter (fun ch => ch ≠ ' ')).length % 2 = 1 ∨
      ("ZZ".toList.filter (fun ch => ch ≠ ' ')).length < 16) ∧
    process_hex_string "ZZ" (1 / 4) = none :=
  ⟨by decide, invalid_input_no_result "ZZ" (1 / 4) (by decide)⟩

/-- C9: `process_hex_string` is total — every string and tank height yields
either the no-result value `none` or a complete `ResultFrame`; the source's
`ValueError`/`IndexError` paths are embedded as the `none` outcomes of
`hex_to_bytearray` and `parse_payload`. -/
theorem process_hex_string_total (s : String) (th : ℚ) :
    process_hex_string s th = none ∨ ∃ r, process_hex_string s th = some r := by
  cases h : process_hex_string s th with
  | none => exact Or.inl rfl
  | some r => exact Or.inr ⟨r, rfl⟩

/-- Byte-level payload of `hexC5` (battery byte 1). -/
def dataC5 : List ℕ := [26, 255, 13, 0, 0, 3, 1, 0]

def hexC5 : String := "1AFF0D0000030100"

/-- Byte-level payload of `hexC6` (temperature byte 1). -/
def dataC6 : List ℕ := [26, 255, 13, 0, 0, 3, 0, 1]

def hexC6 : String := "1AFF0D0000030001"

unseal Rat.inv Rat.mul Rat.add Rat.sub Rat.ofScientific in
/-- C5, counterexample: for battery byte 1 the source reports
`round(1/256*2 + 1.5, 2) = 1.51`, not the claimed exact formula value
`1.5078125`; the reported voltage is the formula rounded to 2 decimals. -/
theorem battery_voltage_rounding_counterexample :
    parse_payload hexC5 = some (mkFrame dataC5) ∧
    (mkFrame dataC5).battery_raw = 1 ∧
    (mkFrame dataC5).battery_voltage = 151 / 100 ∧
    ((mkFrame dataC5).battery_raw : ℚ) / 256 * 2 + 1.5 = 193 / 128 ∧
    (mkFrame dataC5).battery_voltage ≠
      ((mkFrame dataC5).battery_raw : ℚ) / 256 * 2 + 1.5 := by
  decide

/-- C5, amended: the reported battery voltage is
`batteryRaw/256*2.0 + 1.5` rounded to 2 decimal places, and always lies in
the interval [1.5, 3.5). -/
theorem battery_voltage_rounded_formula_and_range (s : String) (fr : SensorFrame)
    (h : parse_payload s = some fr) :
    fr.battery_voltage = round2 ((fr.battery_raw : ℚ) / 256 * 2 + 1.5) ∧
    (1.5 : ℚ) ≤ fr.battery_voltage ∧ fr.battery_voltage < 3.5 := by
  obtain ⟨data, hhex, hlen, rfl⟩ := parse_payload_eq_some h
  rw [hex_to_bytearray] at hhex
  have hbytes := (hexPairsToBytes_sound _ _ hhex).2.2
  have hraw : (mkFrame data).battery_raw < 256 := by
    have h4 : 4 < (data.drop 2).length := by
      rw [List.length_drop]
      omega
    have hmem : (data.drop 2).getD 4 0 ∈ data.drop 2 := by
      rw [List.getD_eq_getElem _ _ h4]
      exact List.getElem_mem h4
    exact hbytes _ (List.drop_subset 2 data hmem)
  refine ⟨rfl, ?_, ?_⟩
  · show (1.5 : ℚ) ≤ round2 (((mkFrame data).battery_raw : ℚ) / 256 * 2 + 1.5)
    have h0 : (0 : ℚ) ≤ ((mkFrame data).battery_raw : ℚ) := Nat.cast_nonneg _
    have hx : (150 : ℚ) ≤ (((mkFrame data).battery_raw : ℚ) / 256 * 2 + 1.5) * 100 := by
      norm_num
      linarith
    have hfl : (150 : ℤ) ≤ ⌊(((mkFrame data).battery_raw : ℚ) / 256 * 2 + 1.5) * 100⌋ :=
      Int.le_floor.mpr (by exact_mod_cast hx)
    have hr := floor_le_roundHE ((((mkFrame data).battery_raw : ℚ) / 256 * 2 + 1.5) * 100)
    rw [round2]
    have : (150 : ℚ) ≤
        (roundHE ((((mkFrame data).battery_raw : ℚ) / 256 * 2 + 1.5) * 100) : ℚ) := by
      exact_mod_cast le_trans hfl hr
    linarith
  · show round2 (((mkFrame data).battery_raw : ℚ) / 256 * 2 + 1.5) < 3.5
    have h255 : ((mkFrame data).battery_raw : ℚ) ≤ 255 := by
      exact_mod_cast Nat.le_of_lt_succ hraw
    have hub := roundHE_le ((((mkFrame data).battery_raw : ℚ) / 256 * 2 + 1.5) * 100)
    have hlt : (roundHE ((((mkFrame data).battery_raw : ℚ) / 256 * 2 + 1.5) * 100) : ℚ) <
        350 := by
      nlinarith
    have hle : (roundHE ((((mkFrame data).battery_raw : ℚ) / 256 * 2 + 1.5) * 100) : ℚ) ≤
        349 := by
      have : roundHE ((((mkFrame data).battery_raw : ℚ) / 256 * 2 + 1.5) * 100) < 350 := by
        exact_mod_cast hlt
      exact_mod_cast Int.lt_add_one_iff.mp this
    rw [round2]
    linarith

unseal Rat.inv Rat.mul Rat.add Rat.sub Rat.ofScientific in
theorem battery_voltage_rounded_formula_and_range_witness :
    parse_payload hexC5 = some (mkFrame dataC5) ∧
    ((mkFrame dataC5).battery_voltage =
        round2 (((mkFrame dataC5).battery_raw : ℚ) / 256 * 2 + 1.5) ∧
      (1.5 : ℚ) ≤ (mkFrame dataC5).battery_voltage ∧
      (mkFrame dataC5).battery_voltage < 3.5) :=
  ⟨by decide, battery_voltage_rounded_formula_and_range hexC5 (mkFrame dataC5) (by decide)⟩

unseal Rat.inv Rat.mul Rat.add Rat.sub Rat.ofScientific in
/-- C6, counterexample: for temperature byte 1 the source reports
`round((1-25)*1.776964, 2) = -42.65`, not the claimed exact formula value
`-42.647136`; the reported temperature is the formula rounded to 2
decimals. -/
theorem temperature_rounding_counterexample :
    parse_payload hexC6 = some (mkFrame dataC6) ∧
    (mkFrame dataC6).temperature_raw = 1 ∧
    (mkFrame dataC6).temperature_c = -853 / 20 ∧
    (((mkFrame dataC6).temperature_raw : ℚ) - 25) * 1.776964 = -42.647136 ∧
    (mkFrame dataC6).temperature_c ≠
      (((mkFrame dataC6).temperature_raw : ℚ) - 25) * 1.776964 := by
  decide

unseal Rat.inv Rat.mul Rat.add Rat.sub Rat.ofScientific in
/-- C6, amended: the reported temperature is -40.0 exactly if and only if
the raw 6-bit temperature is 0, and for nonzero raw values it is
`(raw−25)*1.776964` rounded to 2 decimal places. -/
theorem temperature_iff_and_rounded_formula (s : String) (fr : SensorFrame)
    (h : parse_payload s = some fr) :
    (fr.temperature_raw = 0 ↔ fr.temperature_c = -40) ∧
    (fr.temperature_raw ≠ 0 →
      fr.temperature_c = round2 (((fr.temperature_raw : ℚ) - 25) * 1.776964)) := by
  obtain ⟨data, hhex, hlen, rfl⟩ := parse_payload_eq_some h
  have hraw : (mkFrame data).temperature_raw < 64 := Nat.mod_lt _ (by norm_num)
  have hne : ∀ r : ℕ, r < 64 → r ≠ 0 →
      round2 (((r : ℚ) - 25) * 1.776964) ≠ -40 := by decide
  have hval : (mkFrame data).temperature_c =
      round2 (if (mkFrame data).temperature_raw = 0 then -40
        else (((mkFrame data).temperature_raw : ℚ) - 25) * 1.776964) := rfl
  constructor
  · constructor
    · intro h0
      rw [hval, if_pos h0]
      decide
    · intro hc
      by_contra h0
      rw [hval, if_neg h0] at hc
      exact hne _ hraw h0 hc
  · intro h0
    rw [hval, if_neg h0]

unseal Rat.inv Rat.mul Rat.add Rat.sub Rat.ofScientific in
theorem temperature_iff_and_rounded_formula_witness :
    parse_payload hexC6 = some (mkFrame dataC6) ∧
    (((mkFrame dataC6).temperature_raw = 0 ↔ (mkFrame dataC6).temperature_c = -40) ∧
      ((mkFrame dataC6).temperature_raw ≠ 0 →
        (mkFrame dataC6).temperature_c =
          round2 ((((mkFrame dataC6).temperature_raw : ℚ) - 25) * 1.776964))) :=
  ⟨by decide, temperature_iff_and_rounded_formula hexC6 (mkFrame dataC6) (by decide)⟩

/-- Decomposition of a successful `process_hex_string` call. -/
lemma process_hex_string_eq_some {s : String} {th : ℚ} {r : ResultFrame}
    (h : process_hex_string s th = some r) :
    ∃ fr, parse_payload s = some fr ∧ r = mkResult fr th := by
  rw [process_hex_string] at h
  split at h
  · exact absurd h (by simp)
  · split at h
    · exact absurd h (by simp)
    · next fr heq => exact ⟨fr, heq, (Option.some_inj.mp h).symm⟩

/-- Integer rounding of a value in [2, 100] stays in [2, 100]. -/
lemma roundHE_bounds {x : ℚ} (h2 : 2 ≤ x) (h100 : x ≤ 100) :
    2 ≤ roundHE x ∧ roundHE x ≤ 100 := by
  have ha := le_roundHE x
  have hb := roundHE_le x
  constructor
  · have h1 : (1 : ℚ) < (roundHE x : ℚ) := by linarith
    have : (1 : ℤ) < roundHE x := by exact_mod_cast h1
    omega
  · have h1 : (roundHE x : ℚ) < 101 := by linarith
    have : roundHE x < (101 : ℤ) := by exact_mod_cast h1
    omega

/-- The two clamping conditionals of `legacy_level_percentage` compute
`clamp(pct, 2, 100)`. -/
lemma clamp_ifs_eq (pct : ℚ) :
    (if (if pct < 2 then 2 else pct) > 100 then (100 : ℚ) else if pct < 2 then 2 else pct) =
      min 100 (max 2 pct) := by
  by_cases h1 : pct < 2
  · rw [if_pos h1, if_neg (by norm_num), max_eq_left h1.le,
      min_eq_right (by norm_num : (2 : ℚ) ≤ 100)]
  · rw [if_neg h1, max_eq_right (not_lt.mp h1)]
    by_cases h2 : pct > 100
    · rw [if_pos h2, min_eq_left h2.le]
    · rw [if_neg h2, min_eq_right (not_lt.mp h2)]

/-- For tank heights above the minimum, `legacy_level_percentage` is the
rounded clamp of the linear percentage map. -/
lemma legacy_level_percentage_eq (tof th : ℚ) (h : (0.0381 : ℚ) < th) :
    legacy_level_percentage tof th =
      roundHE (min 100 (max 2
        (98 * (legacy_level_cm tof / 100 - 0.0381) / (th - 0.0381) + 2))) := by
  rw [legacy_level_percentage, if_neg (not_le.mpr h)]
  rw [← clamp_ifs_eq]

/-- `legacy_level_percentage` always returns an integer in [2, 100]. -/
lemma legacy_level_percentage_bounds (tof th : ℚ) :
    2 ≤ legacy_level_percentage tof th ∧ legacy_level_percentage tof th ≤ 100 := by
  rw [legacy_level_percentage]
  split
  · norm_num
  · next hth =>
    apply roundHE_bounds <;> rw [clamp_ifs_eq]
    · exact le_min (by norm_num) (le_max_left _ _)
    · exact min_le_left _ _

/-- C7: for every successfully decoded payload and every tank height, the
returned percentage is an integer in [0, 100]; it is 0 when `isEmpty`,
otherwise 100 when the tank height is at most 0.0381, and otherwise
`round(clamp(98*(levelCm(tof)/100 − 0.0381)/(tankHeight − 0.0381) + 2, 2,
100))` (clamp to [2, 100], round half to even). -/
theorem percentage_characterization (s : String) (th : ℚ) (r : ResultFrame)
    (h : process_hex_string s th = some r) :
    0 ≤ r.percentage ∧ r.percentage ≤ 100 ∧
    (r.is_empty = true → r.percentage = 0) ∧
    (r.is_empty = false →
      ((th ≤ 0.0381 → r.percentage = 100) ∧
       ((0.0381 : ℚ) < th → r.percentage =
          roundHE (min 100 (max 2
            (98 * (legacy_level_cm r.tof / 100 - 0.0381) / (th - 0.0381) + 2)))))) := by
  obtain ⟨fr, hfr, rfl⟩ := process_hex_string_eq_some h
  by_cases htof : compute_pulse_echo_time2 fr.advertisement_peaks vrefDefault = 0
  · have hemp : (mkResult fr th).is_empty = true := by
      show decide _ = true
      simp [htof]
    have hpct : (mkResult fr th).percentage = 0 := by
      show (if decide (compute_pulse_echo_time2 fr.advertisement_peaks vrefDefault = 0)
          then (0 : ℤ) else _) = 0
      simp [htof]
    rw [hemp, hpct]
    refine ⟨le_refl 0, by norm_num, fun _ => rfl, fun hfalse => by simp at hfalse⟩
  · have hemp : (mkResult fr th).is_empty = false := by
      show decide _ = false
      simp [htof]
    have hpct : (mkResult fr th).percentage =
        legacy_level_percentage (mkResult fr th).tof th := by
      show (if decide (compute_pulse_echo_time2 fr.advertisement_peaks vrefDefault = 0)
          then (0 : ℤ) else _) = _
      simp [htof]
      rfl
    obtain ⟨hlo, hhi⟩ := legacy_level_percentage_bounds (mkResult fr th).tof th
    rw [hemp, hpct]
    refine ⟨by omega, hhi, fun htrue => by simp at htrue, fun _ => ⟨?_, ?_⟩⟩
    · intro hle
      rw [legacy_level_percentage, if_pos hle]
    · intro hgt
      exact legacy_level_percentage_eq _ _ hgt

/-- The argmax fold keeps its state when no score exceeds the running
maximum. -/
lemma bestFold_const (score : List ℚ) (L : List ℕ) (st : ℚ × ℕ)
    (h : ∀ b ∈ L, score.getD b 0 ≤ st.1) :
    L.foldl (fun st b => if score.getD b 0 > st.1 then (score.getD b 0, b) else st) st = st := by
  induction L with
  | nil => rfl
  | cons b L ih =>
    rw [List.foldl_cons, if_neg (not_lt.mpr (h b (List.mem_cons_self b L)))]
    exact ih (fun x hx => h x (List.mem_cons_of_mem b hx))

/-- Once the argmax fold holds a nonzero index over nonzero candidates, the
index stays nonzero. -/
lemma bestFold_ne_zero (score : List ℚ) (L : List ℕ) (st : ℚ × ℕ)
    (hst : st.2 ≠ 0) (hL : ∀ b ∈ L, b ≠ 0) :
    (L.foldl (fun st b => if score.getD b 0 > st.1 then (score.getD b 0, b) else st) st).2
      ≠ 0 := by
  induction L generalizing st with
  | nil => exact hst
  | cons b L ih =>
    rw [List.foldl_cons]
    by_cases hc : score.getD b 0 > st.1
    · rw [if_pos hc]
      exact ih (score.getD b 0, b) (hL b (List.mem_cons_self b L))
        (fun x hx => hL x (List.mem_cons_of_mem b hx))
    · rw [if_neg hc]
      exact ih st hst (fun x hx => hL x (List.mem_cons_of_mem b hx))

/-- If some candidate exceeds the running maximum, the argmax fold ends on a
nonzero index. -/
lemma bestFold_exceed (score : List ℚ) (L : List ℕ) (st : ℚ × ℕ)
    (hL : ∀ b ∈ L, b ≠ 0) (h : ∃ b ∈ L, st.1 < score.getD b 0) :
    (L.foldl (fun st b => if score.getD b 0 > st.1 then (score.getD b 0, b) else st) st).2
      ≠ 0 := by
  induction L generalizing st with
  | nil =>
    obtain ⟨b, hb, _⟩ := h
    exact absurd hb (by simp)
  | cons b L ih =>
    rw [List.foldl_cons]
    by_cases hc : score.getD b 0 > st.1
    · rw [if_pos hc]
      exact bestFold_ne_zero score L (score.getD b 0, b) (hL b (List.mem_cons_self b L))
        (fun x hx => hL x (List.mem_cons_of_mem b hx))
    · rw [if_neg hc]
      apply ih st (fun x hx => hL x (List.mem_cons_of_mem b hx))
      obtain ⟨x, hx, hlt⟩ := h
      rcases List.mem_cons.mp hx with rfl | hx'
      · exact absurd hlt hc
      · exact ⟨x, hx', hlt⟩

/-- `n_index` stays 0 exactly when no smoothed score in buckets 2..99
exceeds the starting threshold 0.005. -/
lemma bestBucket_eq_zero_iff (score : List ℚ) :
    bestBucket score = 0 ↔ ∀ b, 2 ≤ b → b ≤ 99 → score.getD b 0 ≤ 1 / 200 := by
  have hL : ∀ b ∈ List.range' 2 98, b ≠ 0 := by
    intro b hb
    obtain ⟨i, hi, rfl⟩ := List.mem_range'.mp hb
    omega
  constructor
  · intro h0
    by_contra hex
    push_neg at hex
    obtain ⟨b, hb2, hb99, hgt⟩ := hex
    have hmem : b ∈ List.range' 2 98 := List.mem_range'.mpr ⟨b - 2, by omega, by omega⟩
    exact bestFold_exceed score (List.range' 2 98) (1 / 200, 0) hL ⟨b, hmem, hgt⟩ h0
  · intro hall
    rw [bestBucket, bestFold_const score _ _ ?_]
    intro b hb
    obtain ⟨i, hi, rfl⟩ := List.mem_range'.mp hb
    exact hall (2 + 1 * i) (by omega) (by omega)

/-- The estimator returns 0 exactly when the peak list is empty, the
maximum raw amplitude is at most 0.63453125, or no smoothed score bucket in
2..99 exceeds 0.005. -/
lemma compute_eq_zero_iff (c : List Peak) (vref : ℚ) :
    compute_pulse_echo_time2 c vref = 0 ↔
      (c = [] ∨ (gMax c : ℚ) ≤ 0.63453125 ∨
        ∀ b, 2 ≤ b → b ≤ 99 →
          (scoreFilt (buildN c vref) (buildM c (gList c) vref)).getD b 0 ≤ 1 / 200) := by
  rw [compute_pulse_echo_time2]
  by_cases hc : c = []
  · simp [hc]
  · rw [if_neg hc]
    by_cases hg : (gMax c : ℚ) ≤ 0.63453125
    · simp [hg, hc]
    · rw [if_neg hg]
      simp only [hc, hg, false_or]
      constructor
      · intro h
        rcases mul_eq_zero.mp h with h' | h'
        · norm_num at h'
        · have hb : bestBucket (scoreFilt (buildN c vref) (buildM c (gList c) vref)) = 0 := by
            exact_mod_cast h'
          exact (bestBucket_eq_zero_iff _).mp hb
      · intro hall
        rw [(bestBucket_eq_zero_iff _).mpr hall]
        norm_num

/-- C2, amended: for every successfully decoded payload, `isEmpty` holds iff
`tof = 0`, and `tof = 0` iff the peak list is empty, or the maximum raw
amplitude is at most 0.63453125, or no smoothed score bucket in 2..99
exceeds the 0.005 threshold (this third disjunct is missing from the claim:
with it absent, the equivalence fails — see the counterexample). -/
theorem isEmpty_tof_zero_characterization (s : String) (th : ℚ) (r : ResultFrame)
    (h : process_hex_string s th = some r) :
    (r.is_empty = true ↔ r.tof = 0) ∧
    (r.tof = 0 ↔
      (r.frame.advertisement_peaks = [] ∨
       (gMax r.frame.advertisement_peaks : ℚ) ≤ 0.63453125 ∨
       ∀ b, 2 ≤ b → b ≤ 99 →
         (scoreFilt (buildN r.frame.advertisement_peaks vrefDefault)
           (buildM r.frame.advertisement_peaks (gList r.frame.advertisement_peaks)
             vrefDefault)).getD b 0 ≤ 1 / 200)) := by
  obtain ⟨fr, hfr, rfl⟩ := process_hex_string_eq_some h
  constructor
  · show decide ((mkResult fr th).tof = 0) = true ↔ (mkResult fr th).tof = 0
    exact decide_eq_true_iff
  · show compute_pulse_echo_time2 fr.advertisement_peaks vrefDefault = 0 ↔ _
    exact compute_eq_zero_iff fr.advertisement_peaks vrefDefault

def hexXl : String := "1AFF0D00000300001F7CF00109"

set_option maxRecDepth 400000 in
unseal Rat.inv Rat.mul Rat.add Rat.sub Rat.ofScientific in
/-- C2, counterexample: this payload decodes to the single peak
`{a: 6, i: 202}`; all scoring buckets stay at 0 because the peak time 101
lies beyond bucket 99, so `tof = 0` and `isEmpty`, although the peak list is
nonempty and its maximum amplitude 6 exceeds 0.63453125 — refuting
`tof == 0 ⟺ (peaks empty ∨ max amplitude ≤ 0.63453125)`. -/
theorem tof_zero_above_threshold_counterexample :
    process_hex_string hexXl (127 / 500) = some (mkResult (mkFrame dataXl) (127 / 500)) ∧
    (mkResult (mkFrame dataXl) (127 / 500)).tof = 0 ∧
    (mkResult (mkFrame dataXl) (127 / 500)).is_empty = true ∧
    (mkResult (mkFrame dataXl) (127 / 500)).frame.advertisement_peaks = [⟨6, 202⟩] ∧
    ¬ ((gMax (mkResult (mkFrame dataXl) (127 / 500)).frame.advertisement_peaks : ℚ) ≤
        0.63453125) := by
  decide

set_option maxRecDepth 400000 in
unseal Rat.inv Rat.mul Rat.add Rat.sub Rat.ofScientific in
theorem isEmpty_tof_zero_characterization_witness :
    ((mkResult (mkFrame dataXl) (127 / 500)).is_empty = true ↔
      (mkResult (mkFrame dataXl) (127 / 500)).tof = 0) ∧
    ((mkResult (mkFrame dataXl) (127 / 500)).tof = 0 ↔
      ((mkResult (mkFrame dataXl) (127 / 500)).frame.advertisement_peaks = [] ∨
       (gMax (mkResult (mkFrame dataXl) (127 / 500)).frame.advertisement_peaks : ℚ) ≤
         0.63453125 ∨
       ∀ b, 2 ≤ b → b ≤ 99 →
         (scoreFilt
           (buildN (mkResult (mkFrame dataXl) (127 / 500)).frame.advertisement_peaks
             vrefDefault)
           (buildM (mkResult (mkFrame dataXl) (127 / 500)).frame.advertisement_peaks
             (gList (mkResult (mkFrame dataXl) (127 / 500)).frame.advertisement_peaks)
             vrefDefault)).getD b 0 ≤ 1 / 200)) :=
  isEmpty_tof_zero_characterization hexXl (127 / 500)
    (mkResult (mkFrame dataXl) (127 / 500)) (by decide)

/-! ## Fold-to-sum characterization of the `m_arr` accumulation (C3) -/

/-- Apply a list of guarded accumulator updates in order. -/
def applyBumps (arr : List ℚ) (l : List (ℤ × ℚ)) : List ℚ :=
  l.foldl (fun a p => bump a p.1 p.2) arr

/-- The contributions written by row `b` of the `m_arr` double loop: the
representative's own adjusted amplitude into its time bucket, then one
averaged contribution per later representative into the time-difference
bucket. -/
def mRow (c : List Peak) (g : List ℕ) (vref : ℚ) (b : ℕ) : List (ℤ × ℚ) :=
  (roundHE (peakTime c (g.getD b 0)), peakAdj c (g.getD b 0) vref) ::
    (List.range' (b + 1) (g.length - (b + 1))).map (fun f =>
      (roundHE (peakTime c (g.getD f 0) - peakTime c (g.getD b 0)),
       (peakAdj c (g.getD f 0) vref + peakAdj c (g.getD b 0) vref) / 2))

lemma foldl_flatMap {α β γ : Type} (f : γ → β → γ) (g : α → List β) (L : List α) (init : γ) :
    (L.flatMap g).foldl f init = L.foldl (fun a b => (g b).foldl f a) init := by
  induction L generalizing init with
  | nil => rfl
  | cons x L ih => rw [List.flatMap_cons, List.foldl_append, List.foldl_cons, ih]

lemma foldl_ext {α β : Type} (f g : α → β → α) (l : List β) (init : α)
    (h : ∀ a b, f a b = g a b) : l.foldl f init = l.foldl g init := by
  induction l generalizing init with
  | nil => rfl
  | cons x l ih => rw [List.foldl_cons, List.foldl_cons, h, ih]

/-- The `m_arr` double loop is the sequential application of the row
contribution lists. -/
lemma buildM_eq_applyBumps (c : List Peak) (g : List ℕ) (vref : ℚ) :
    buildM c g vref =
      applyBumps (List.replicate 100 0) ((List.range g.length).flatMap (mRow c g vref)) := by
  rw [buildM, applyBumps, foldl_flatMap]
  apply foldl_ext
  intro arr b
  rw [mRow, List.foldl_cons, List.foldl_map]

lemma bump_length (arr : List ℚ) (i : ℤ) (v : ℚ) : (bump arr i v).length = arr.length := by
  rw [bump]
  split
  · simp
  · rfl

lemma getD_set (arr : List ℚ) (j k : ℕ) (v : ℚ) (hj : j < arr.length) :
    (arr.set j v).getD k 0 = if j = k then v else arr.getD k 0 := by
  by_cases hjk : j = k
  · subst hjk
    simp [List.getD_eq_getElem?_getD, List.getElem?_set_self hj]
  · simp [List.getD_eq_getElem?_getD, List.getElem?_set_ne hjk, hjk]

/-- Reading a bucket after one nonnegative-index update. -/
lemma bump_getD (arr : List ℚ) (i : ℤ) (v : ℚ) (k : ℕ) (hi : 0 ≤ i)
    (hlen : arr.length = 100) (hk : k < 100) :
    (bump arr i v).getD k 0 = arr.getD k 0 + (if i = (k : ℤ) then v else 0) := by
  rw [bump]
  by_cases h100 : i < 100
  · rw [if_pos h100, if_pos hi]
    have hj : i.toNat < arr.length := by omega
    rw [getD_set _ _ _ _ hj]
    by_cases heq : i.toNat = k
    · rw [if_pos heq, if_pos (by omega)]
      congr 1
      rw [heq]
    · rw [if_neg heq, if_neg (by omega), add_zero]
  · rw [if_neg h100, if_neg (by omega : ¬ i = (k : ℤ)), add_zero]

/-- Reading a bucket after a list of nonnegative-index updates: the initial
value plus the sum of the contributions aimed at that bucket. -/
lemma applyBumps_getD (l : List (ℤ × ℚ)) (arr : List ℚ) (k : ℕ)
    (hnn : ∀ p ∈ l, 0 ≤ p.1) (hlen : arr.length = 100) (hk : k < 100) :
    (applyBumps arr l).getD k 0 =
      arr.getD k 0 + (l.map (fun p => if p.1 = (k : ℤ) then p.2 else 0)).sum := by
  induction l generalizing arr with
  | nil => simp [applyBumps]
  | cons p l ih =>
    rw [applyBumps, List.foldl_cons]
    rw [show List.foldl (fun a q => bump a q.1 q.2) (bump arr p.1 p.2) l =
      applyBumps (bump arr p.1 p.2) l from rfl]
    rw [ih (bump arr p.1 p.2) (fun x hx => hnn x (List.mem_cons_of_mem p hx))
      ((bump_length arr p.1 p.2).trans hlen)]
    rw [bump_getD arr p.1 p.2 k (hnn p (List.mem_cons_self p l)) hlen hk]
    rw [List.map_cons, List.sum_cons]
    ring

/-- Spec transcription of the amended C3 self terms: each representative
contributes its full adjusted amplitude to the bucket of its rounded
time. -/
def mSelfSum (c : List Peak) (g : List ℕ) (vref : ℚ) (idx : ℕ) : ℚ :=
  ((List.range g.length).map (fun b =>
    if roundHE (peakTime c (g.getD b 0)) = (idx : ℤ) then peakAdj c (g.getD b 0) vref
    else 0)).sum

/-- Spec transcription of the C3 pair terms: each ordered pair of
representatives contributes the average of the two adjusted amplitudes to
the bucket of the rounded time difference. -/
def mPairSum (c : List Peak) (g : List ℕ) (vref : ℚ) (idx : ℕ) : ℚ :=
  ((List.range g.length).map (fun b =>
    ((List.range' (b + 1) (g.length - (b + 1))).map (fun f =>
      if roundHE (peakTime c (g.getD f 0) - peakTime c (g.getD b 0)) = (idx : ℤ)
      then (peakAdj c (g.getD f 0) vref + peakAdj c (g.getD b 0) vref) / 2
      else 0)).sum)).sum

lemma roundHE_nonneg {q : ℚ} (h : 0 ≤ q) : 0 ≤ roundHE q := by
  have h1 : (0 : ℤ) ≤ ⌊q⌋ := Int.le_floor.mpr (by exact_mod_cast h)
  exact le_trans h1 (floor_le_roundHE q)

lemma peakTime_nonneg (c : List Peak) (j : ℕ) : 0 ≤ peakTime c j := by
  rw [peakTime]
  positivity

/-- C3, amended: in the `M` accumulation every bucket below 100 receives the
sum of the representatives' full adjusted amplitudes (weight 1, not the
claimed 0.5) over representatives whose rounded time is the bucket, plus the
sum of the pairwise averaged adjusted amplitudes over ordered representative
pairs whose rounded time difference is the bucket.  The hypothesis that
representative times are nondecreasing holds for every decoder-produced
peak list (`decoded_peaks_invariants`) and keeps all bucket indices
nonnegative. -/
theorem m_accumulator_characterization (c : List Peak) (g : List ℕ) (vref : ℚ)
    (hmono : ∀ b f, b < f → f < g.length →
      peakTime c (g.getD b 0) ≤ peakTime c (g.getD f 0))
    (idx : ℕ) (hidx : idx < 100) :
    (buildM c g vref).getD idx 0 = mSelfSum c g vref idx + mPairSum c g vref idx := by
  rw [buildM_eq_applyBumps]
  have hnn : ∀ p ∈ (List.range g.length).flatMap (mRow c g vref), 0 ≤ p.1 := by
    intro p hp
    obtain ⟨b, hb, hpb⟩ := List.mem_flatMap.mp hp
    rw [mRow] at hpb
    rcases List.mem_cons.mp hpb with rfl | hpb'
    · exact roundHE_nonneg (peakTime_nonneg c _)
    · obtain ⟨f, hf, rfl⟩ := List.mem_map.mp hpb'
      obtain ⟨i, hi, rfl⟩ := List.mem_range'.mp hf
      have hblt : b < b + 1 + 1 * i := by omega
      have hflt : b + 1 + 1 * i < g.length := by
        have := List.mem_range.mp hb
        omega
      exact roundHE_nonneg (by linarith [hmono b (b + 1 + 1 * i) hblt hflt])
  rw [applyBumps_getD _ _ idx hnn (by simp) hidx]
  have hrep : (List.replicate 100 (0 : ℚ)).getD idx 0 = 0 := by
    rw [List.getD_eq_getElem?_getD, List.getElem?_replicate, if_pos hidx]
    rfl
  rw [hrep, zero_add]
  -- turn the flatMap sum into the row-wise double sum
  have hflat : ∀ (L : List ℕ),
      ((L.flatMap (mRow c g vref)).map
        (fun p => if p.1 = (idx : ℤ) then p.2 else 0)).sum =
      (L.map (fun b => (((mRow c g vref b).map
        (fun p => if p.1 = (idx : ℤ) then p.2 else 0))).sum)).sum := by
    intro L
    induction L with
    | nil => rfl
    | cons x L ih =>
      rw [List.flatMap_cons, List.map_append, List.sum_append, ih, List.map_cons,
        List.sum_cons]
  rw [hflat]
  rw [mSelfSum, mPairSum, ← List.sum_map_add]
  congr 1
  apply List.map_congr_left
  intro b _
  rw [mRow, List.map_cons, List.sum_cons, List.map_map]
  rfl

set_option maxRecDepth 4000 in
unseal Rat.inv Rat.mul Rat.add Rat.sub Rat.ofScientific in
/-- C3, counterexample: for the single-peak list `[{a: 10, i: 20}]` the
representative list is `[0]` and the source adds the full adjusted
amplitude into bucket 10 (`m_arr[idx] += m_adj`), not the claimed
`0.5 * adjust` self term of the N scheme. -/
theorem m_accumulator_self_weight_counterexample :
    gList [⟨10, 20⟩] = [0] ∧
    (buildM [⟨10, 20⟩] [0] vrefDefault).getD 10 0 =
      adjust_amplitude 10 10 vrefDefault ∧
    adjust_amplitude 10 10 vrefDefault = 588245 / 65536 ∧
    (buildM [⟨10, 20⟩] [0] vrefDefault).getD 10 0 ≠
      0.5 * adjust_amplitude 10 10 vrefDefault := by
  decide

set_option maxRecDepth 4000 in
unseal Rat.inv Rat.mul Rat.add Rat.sub Rat.ofScientific in
theorem m_accumulator_characterization_witness :
    (∀ b f, b < f → f < ([0, 1] : List ℕ).length →
      peakTime [⟨10, 20⟩, ⟨8, 30⟩] (([0, 1] : List ℕ).getD b 0) ≤
        peakTime [⟨10, 20⟩, ⟨8, 30⟩] (([0, 1] : List ℕ).getD f 0)) ∧
    (5 < 100 ∧
      (buildM [⟨10, 20⟩, ⟨8, 30⟩] [0, 1] vrefDefault).getD 5 0 =
        mSelfSum [⟨10, 20⟩, ⟨8, 30⟩] [0, 1] vrefDefault 5 +
          mPairSum [⟨10, 20⟩, ⟨8, 30⟩] [0, 1] vrefDefault 5) := by
  have hmono : ∀ b f, b < f → f < ([0, 1] : List ℕ).length →
      peakTime [⟨10, 20⟩, ⟨8, 30⟩] (([0, 1] : List ℕ).getD b 0) ≤
        peakTime [⟨10, 20⟩, ⟨8, 30⟩] (([0, 1] : List ℕ).getD f 0) := by
    intro b f hbf hf
    have hf2 : f < 2 := by simpa using hf
    have hf1 : f = 1 := by omega
    have hb0 : b = 0 := by omega
    subst hf1
    subst hb0
    decide
  exact ⟨hmono, by norm_num,
    m_accumulator_characterization [⟨10, 20⟩, ⟨8, 30⟩] [0, 1] vrefDefault hmono 5
      (by norm_num)⟩

set_option maxRecDepth 400000 in
unseal Rat.inv Rat.mul Rat.add Rat.sub Rat.ofScientific in
theorem percentage_characterization_witness :
    0 ≤ (mkResult (mkFrame dataXl) (127 / 500)).percentage ∧
    (mkResult (mkFrame dataXl) (127 / 500)).percentage ≤ 100 ∧
    ((mkResult (mkFrame dataXl) (127 / 500)).is_empty = true →
      (mkResult (mkFrame dataXl) (127 / 500)).percentage = 0) ∧
    ((mkResult (mkFrame dataXl) (127 / 500)).is_empty = false →
      (((127 : ℚ) / 500 ≤ 0.0381 →
          (mkResult (mkFrame dataXl) (127 / 500)).percentage = 100) ∧
       ((0.0381 : ℚ) < 127 / 500 →
          (mkResult (mkFrame dataXl) (127 / 500)).percentage =
            roundHE (min 100 (max 2
              (98 * (legacy_level_cm (mkResult (mkFrame dataXl) (127 / 500)).tof / 100 -
                  0.0381) / (127 / 500 - 0.0381) + 2)))))) :=
  percentage_characterization hexXl (127 / 500) (mkResult (mkFrame dataXl) (127 / 500))
    (by decide)

end Mopeka
